import Mathlib

/-!
# Verification of the `ConfusionMatrix` accumulator (src/metrics/confusion.rs)

Shallow embedding of the streaming confusion-matrix accumulator of
`light-river`.  The Rust structure is generic over a numeric float type `F`;
here the weight type is instantiated with `ℚ`, an exact field supporting the
addition, subtraction, zero/one construction and comparison the accumulator
relies on.  The Rust `HashMap`s are embedded as association lists with
first-match lookup; every mutating path of the source touches a map only
through the `entry(..).and_modify(..).or_insert(..)` pattern, embedded below
as `addTo` / `addCell`, which keeps keys unique starting from the empty map.
-/

/-- Modelled from the spec: `ClassifierTarget` (the `ClassLabel` of the spec)
lives in `src/common.rs`, which is not part of the sources shown.  The spec
describes it as an opaque, totally-ordered, hashable identifier constructed
from a string, with equality iff the underlying values are equal; `String`
has exactly these properties.  Likewise `ClassifierOutput::get_predicition`
resolves a classifier output to its predicted label; since the spec states
the core consumes `(predicted label, true label, weight)` tuples, operations
below take the resolved predicted label directly. -/
abbrev Label := String

/-- First-match association-list lookup, the embedding of `HashMap::get`. -/
def alookup {V : Type} : List (Label × V) → Label → Option V
  | [], _ => none
  | (k, v) :: rest, k' => if k = k' then some v else alookup rest k'

/-- Embedding of `map.entry(k).and_modify(|x| *x += w).or_insert(w)`:
add `w` to the value stored at `k`, inserting `w` if `k` is absent. -/
def addTo : List (Label × ℚ) → Label → ℚ → List (Label × ℚ)
  | [], k, w => [(k, w)]
  | (k', v) :: rest, k, w =>
      if k' = k then (k', v + w) :: rest else (k', v) :: addTo rest k w

/-- Embedding of
`data.entry(t).or_insert_with(HashMap::new).entry(p).and_modify(|x| *x += w).or_insert(w)`:
add `w` to the cell at row `t`, column `p` of the nested map. -/
def addCell : List (Label × List (Label × ℚ)) → Label → Label → ℚ →
    List (Label × List (Label × ℚ))
  | [], t, p, w => [(t, [(p, w)])]
  | (t', row) :: rest, t, p, w =>
      if t' = t then (t', addTo row p w) :: rest
      else (t', row) :: addCell rest t p w

/-- The accumulator state, mirroring the Rust `ConfusionMatrix<F>` struct:
`n_samples`, `data` (rows keyed by true label, columns by predicted label),
`sum_row`, `sum_col`, `total_weight`. -/
structure ConfusionMatrix where
  n_samples : ℚ
  data : List (Label × List (Label × ℚ))
  sum_row : List (Label × ℚ)
  sum_col : List (Label × ℚ)
  total_weight : ℚ
  deriving DecidableEq

namespace ConfusionMatrix

/-- `ConfusionMatrix::new` — the empty accumulator. -/
def new : ConfusionMatrix :=
  { n_samples := 0, data := [], sum_row := [], sum_col := [], total_weight := 0 }

/-- `ConfusionMatrix::_update` — the shared signed-weight primitive: add
`sample_weight` to the cell `(y_true, label_pred)`, to `total_weight`, to
`sum_row[y_true]` and to `sum_col[label_pred]`. -/
def rawUpdate (cm : ConfusionMatrix) (label_pred y_true : Label)
    (sample_weight : ℚ) : ConfusionMatrix :=
  { cm with
    data := addCell cm.data y_true label_pred sample_weight
    total_weight := cm.total_weight + sample_weight
    sum_row := addTo cm.sum_row y_true sample_weight
    sum_col := addTo cm.sum_col label_pred sample_weight }

/-- `ConfusionMatrix::update`: `n_samples += weight.unwrap_or(1)` then
`_update` with `+weight.unwrap_or(1)`. -/
def update (cm : ConfusionMatrix) (y_pred y_true : Label)
    (sample_weight : Option ℚ) : ConfusionMatrix :=
  rawUpdate { cm with n_samples := cm.n_samples + sample_weight.getD 1 }
    y_pred y_true (sample_weight.getD 1)

/-- `ConfusionMatrix::revert`: `n_samples -= weight.unwrap_or(1)` then
`_update` with `-weight.unwrap_or(1)`. -/
def revert (cm : ConfusionMatrix) (y_pred y_true : Label)
    (sample_weight : Option ℚ) : ConfusionMatrix :=
  rawUpdate { cm with n_samples := cm.n_samples - sample_weight.getD 1 }
    y_pred y_true (-(sample_weight.getD 1))

/-- `ConfusionMatrix::get` — the row of `label`, or the empty map. -/
def get (cm : ConfusionMatrix) (label : Label) : List (Label × ℚ) :=
  (alookup cm.data label).getD []

/-- `ConfusionMatrix::support` — `sum_col[label]`, or zero if absent. -/
def support (cm : ConfusionMatrix) (label : Label) : ℚ :=
  (alookup cm.sum_col label).getD 0

/-- `ConfusionMatrix::true_positives` — the diagonal cell `data[label][label]`,
resolving each missing key to zero. -/
def true_positives (cm : ConfusionMatrix) (label : Label) : ℚ :=
  (alookup ((alookup cm.data label).getD []) label).getD 0

/-- `ConfusionMatrix::total_true_positives` — fold of `true_positives` over
the row keys of `data`. -/
def total_true_positives (cm : ConfusionMatrix) : ℚ :=
  (cm.data.map Prod.fst).foldl (fun sum label => sum + cm.true_positives label) 0

/-- `ConfusionMatrix::true_negatives`. -/
def true_negatives (cm : ConfusionMatrix) (label : Label) : ℚ :=
  cm.total_true_positives - cm.true_positives label

/-- `ConfusionMatrix::false_positives`. -/
def false_positives (cm : ConfusionMatrix) (label : Label) : ℚ :=
  (alookup cm.sum_col label).getD 0 - cm.true_positives label

/-- `ConfusionMatrix::false_negatives`. -/
def false_negatives (cm : ConfusionMatrix) (label : Label) : ℚ :=
  (alookup cm.sum_row label).getD 0 - cm.true_positives label

/-- `ConfusionMatrix::total_false_positives`. -/
def total_false_positives (cm : ConfusionMatrix) : ℚ :=
  (cm.data.map Prod.fst).foldl (fun sum label => sum + cm.false_positives label) 0

/-- `ConfusionMatrix::total_false_negatives`. -/
def total_false_negatives (cm : ConfusionMatrix) : ℚ :=
  (cm.data.map Prod.fst).foldl (fun sum label => sum + cm.false_negatives label) 0

/-- `ConfusionMatrix::total_true_negatives`. -/
def total_true_negatives (cm : ConfusionMatrix) : ℚ :=
  (cm.data.map Prod.fst).foldl (fun sum label => sum + cm.true_negatives label) 0

/-- `ConfusionMatrix::get_classes` — every label whose `sum_row` entry is
non-zero together with every label whose `sum_col` entry is non-zero,
collected into a set. -/
def get_classes (cm : ConfusionMatrix) : Finset Label :=
  ((cm.sum_row.filter fun kv => kv.2 != 0).map Prod.fst).toFinset ∪
    ((cm.sum_col.filter fun kv => kv.2 != 0).map Prod.fst).toFinset

end ConfusionMatrix

/-! ## Extensional observations of a state -/

/-- The value of cell `(t, p)` — the accumulated weight with truth `t` and
prediction `p` — reading an absent row or entry as zero. -/
def cellVal (cm : ConfusionMatrix) (t p : Label) : ℚ :=
  (alookup ((alookup cm.data t).getD []) p).getD 0

/-- The stored row sum for `c`, reading an absent entry as zero. -/
def rowSumVal (cm : ConfusionMatrix) (c : Label) : ℚ :=
  (alookup cm.sum_row c).getD 0

/-- The stored column sum for `c`, reading an absent entry as zero. -/
def colSumVal (cm : ConfusionMatrix) (c : Label) : ℚ :=
  (alookup cm.sum_col c).getD 0

/-- Sum of the values of a flat map. -/
def valsSum (m : List (Label × ℚ)) : ℚ :=
  (m.map Prod.snd).sum

/-- Per-column totals of the nested map: for each row entry, the value stored
at column `c` (zero if the row has no entry for `c`), summed over the rows. -/
def colVals (data : List (Label × List (Label × ℚ))) (c : Label) : ℚ :=
  (data.map fun kv => (alookup kv.2 c).getD 0).sum

/-! ## Reachable states -/

/-- One public mutating call of the accumulator. -/
inductive Op where
  | upd (y_pred y_true : Label) (w : Option ℚ)
  | rev (y_pred y_true : Label) (w : Option ℚ)
  deriving DecidableEq

/-- Apply one call to a state. -/
def applyOp (cm : ConfusionMatrix) : Op → ConfusionMatrix
  | Op.upd p t w => cm.update p t w
  | Op.rev p t w => cm.revert p t w

/-- Run a call sequence from the empty accumulator. -/
def runOps (ops : List Op) : ConfusionMatrix :=
  ops.foldl applyOp ConfusionMatrix.new

/-- A state is reachable when some finite sequence of `update`/`revert`
calls starting from `new()` produces it. -/
def Reachable (cm : ConfusionMatrix) : Prop :=
  ∃ ops : List Op, runOps ops = cm

/-- The internal consistency invariant of the accumulator. -/
structure CMInv (cm : ConfusionMatrix) : Prop where
  ns_tw : cm.n_samples = cm.total_weight
  row_nodup : (cm.sum_row.map Prod.fst).Nodup
  col_nodup : (cm.sum_col.map Prod.fst).Nodup
  data_nodup : (cm.data.map Prod.fst).Nodup
  rows_nodup : ∀ kv ∈ cm.data, (kv.2.map Prod.fst).Nodup
  row_ok : ∀ c, rowSumVal cm c = valsSum ((alookup cm.data c).getD [])
  col_ok : ∀ c, colSumVal cm c = colVals cm.data c
  tw_row : cm.total_weight = valsSum cm.sum_row
  tw_col : cm.total_weight = valsSum cm.sum_col

/-! ## Sequences of updates and reverts -/

/-- One `(predicted, truth, optional weight)` argument triple. -/
abbrev Triple := Label × Label × Option ℚ

/-- The effective weight of a triple: the given weight, or the default `1`. -/
def effW (x : Triple) : ℚ := x.2.2.getD 1

/-- Apply `update` with the triple's arguments. -/
def applyU (cm : ConfusionMatrix) (x : Triple) : ConfusionMatrix :=
  cm.update x.1 x.2.1 x.2.2

/-- Apply `revert` with the triple's arguments. -/
def applyR (cm : ConfusionMatrix) (x : Triple) : ConfusionMatrix :=
  cm.revert x.1 x.2.1 x.2.2

/-- Apply a whole sequence of `update` calls. -/
def runUpdates (cm : ConfusionMatrix) (L : List Triple) : ConfusionMatrix :=
  L.foldl applyU cm

/-- Apply a whole sequence of `revert` calls. -/
def runReverts (cm : ConfusionMatrix) (L : List Triple) : ConfusionMatrix :=
  L.foldl applyR cm

/-- Two states agree on every observable field: `n_samples`, `total_weight`,
every cell value (an absent entry read as zero), every row sum and every
column sum. -/
def ExtEq (a b : ConfusionMatrix) : Prop :=
  a.n_samples = b.n_samples ∧ a.total_weight = b.total_weight ∧
    (∀ t p, cellVal a t p = cellVal b t p) ∧
    (∀ c, rowSumVal a c = rowSumVal b c) ∧
    (∀ c, colSumVal a c = colSumVal b c)

/-! ## The concrete scenario of the doc-test -/

/-- The call sequence of the example: `update` with `(predicted, true)` pairs
(ant, cat), (ant, ant), (cat, cat), (cat, cat), (ant, ant), (cat, bird),
each with weight 1. -/
def scenarioOps : List Op :=
  [Op.upd "ant" "cat" (some 1), Op.upd "ant" "ant" (some 1),
   Op.upd "cat" "cat" (some 1), Op.upd "cat" "cat" (some 1),
   Op.upd "ant" "ant" (some 1), Op.upd "cat" "bird" (some 1)]

/-- The accumulator state after the example call sequence. -/
def exCM : ConfusionMatrix := runOps scenarioOps

/-- The explicit value of the doc-test state. -/
def exCMval : ConfusionMatrix :=
  ⟨6,
    [("cat", [("ant", 1), ("cat", 2)]), ("ant", [("ant", 2)]), ("bird", [("cat", 1)])],
    [("cat", 3), ("ant", 2), ("bird", 1)],
    [("ant", 3), ("cat", 3)],
    6⟩

/-- A state whose only contribution has been fully reverted. -/
def revOps : List Op := [Op.upd "a" "b" none, Op.rev "a" "b" none]

/-- The fully-reverted state: entries exist but hold zero net weight. -/
def revCM : ConfusionMatrix := runOps revOps

/-! ## Lemmas about the map primitives -/

theorem alookup_addTo (m : List (Label × ℚ)) (k : Label) (w : ℚ) (k' : Label) :
    (alookup (addTo m k w) k').getD 0 =
      (alookup m k').getD 0 + (if k = k' then w else 0) := by
  induction m with
  | nil =>
    by_cases h : k = k' <;> simp [addTo, alookup, h]
  | cons kv rest ih =>
    obtain ⟨a, v⟩ := kv
    by_cases hak : a = k
    · subst hak
      by_cases hk : a = k' <;> simp [addTo, alookup, hk]
    · by_cases hak' : a = k'
      · subst hak'
        have : ¬ k = a := fun h => hak h.symm
        simp [addTo, alookup, hak, this]
      · simp [addTo, alookup, hak, hak', ih]

theorem valsSum_addTo (m : List (Label × ℚ)) (k : Label) (w : ℚ) :
    valsSum (addTo m k w) = valsSum m + w := by
  induction m with
  | nil => simp [addTo, valsSum]
  | cons kv rest ih =>
    obtain ⟨a, v⟩ := kv
    by_cases hak : a = k
    · simp [addTo, hak, valsSum]
      ring
    · simp [addTo, hak, valsSum] at ih ⊢
      rw [ih]
      ring

theorem mem_keys_addTo (m : List (Label × ℚ)) (k : Label) (w : ℚ) (a : Label) :
    a ∈ (addTo m k w).map Prod.fst ↔ a ∈ m.map Prod.fst ∨ a = k := by
  induction m with
  | nil => simp [addTo]
  | cons kv rest ih =>
    obtain ⟨b, v⟩ := kv
    by_cases hbk : b = k
    · subst hbk
      by_cases hab : a = b <;> simp [addTo, hab]
    · simp [addTo, hbk, ih]
      tauto

theorem nodup_keys_addTo (m : List (Label × ℚ)) (k : Label) (w : ℚ)
    (h : (m.map Prod.fst).Nodup) : ((addTo m k w).map Prod.fst).Nodup := by
  induction m with
  | nil => simp [addTo]
  | cons kv rest ih =>
    obtain ⟨b, v⟩ := kv
    rw [List.map_cons, List.nodup_cons] at h
    by_cases hbk : b = k
    · subst hbk
      have hstep : addTo ((b, v) :: rest) b w = (b, v + w) :: rest := by
        simp [addTo]
      rw [hstep, List.map_cons, List.nodup_cons]
      exact ⟨h.1, h.2⟩
    · simp only [addTo, if_neg hbk, List.map_cons, List.nodup_cons]
      refine ⟨?_, ih h.2⟩
      intro hmem
      rcases (mem_keys_addTo rest k w b).mp hmem with hb | hb
      · exact h.1 hb
      · exact hbk hb

theorem alookup_eq_none {V : Type} (m : List (Label × V)) (a : Label)
    (h : a ∉ m.map Prod.fst) : alookup m a = none := by
  induction m with
  | nil => rfl
  | cons kv rest ih =>
    obtain ⟨b, v⟩ := kv
    rw [List.map_cons, List.mem_cons] at h
    push_neg at h
    have hba : ¬ b = a := fun hh => h.1 hh.symm
    simp only [alookup, if_neg hba]
    exact ih h.2

theorem alookup_of_mem_nodup {V : Type} (m : List (Label × V)) (a : Label)
    (v : V) (hn : (m.map Prod.fst).Nodup) (hm : (a, v) ∈ m) :
    alookup m a = some v := by
  induction m with
  | nil => cases hm
  | cons kv rest ih =>
    obtain ⟨b, u⟩ := kv
    rw [List.map_cons, List.nodup_cons] at hn
    rw [List.mem_cons] at hm
    rcases hm with hm | hm
    · rw [Prod.mk.injEq] at hm
      obtain ⟨rfl, rfl⟩ := hm
      simp [alookup]
    · have hba : ¬ b = a := by
        intro hh
        subst hh
        exact hn.1 (List.mem_map.mpr ⟨(b, v), hm, rfl⟩)
      simp only [alookup, if_neg hba]
      exact ih hn.2 hm

theorem alookup_addCell (data : List (Label × List (Label × ℚ)))
    (t p : Label) (w : ℚ) (t' : Label) :
    (alookup (addCell data t p w) t').getD [] =
      if t = t' then addTo ((alookup data t').getD []) p w
      else (alookup data t').getD [] := by
  induction data with
  | nil =>
    by_cases h : t = t' <;> simp [addCell, alookup, h, addTo]
  | cons kv rest ih =>
    obtain ⟨b, row⟩ := kv
    by_cases hbt : b = t
    · subst hbt
      by_cases hbt' : b = t' <;> simp [addCell, alookup, hbt']
    · by_cases hbt' : b = t'
      · subst hbt'
        have htt' : ¬ t = b := fun hh => hbt hh.symm
        simp [addCell, alookup, hbt, htt']
      · simp [addCell, alookup, hbt, hbt', ih]

theorem colVals_addCell (data : List (Label × List (Label × ℚ)))
    (t p : Label) (w : ℚ) (c : Label) :
    colVals (addCell data t p w) c = colVals data c + (if p = c then w else 0) := by
  induction data with
  | nil =>
    by_cases hpc : p = c <;> simp [addCell, colVals, alookup, hpc]
  | cons kv rest ih =>
    obtain ⟨b, row⟩ := kv
    by_cases hbt : b = t
    · subst hbt
      have hstep : addCell ((b, row) :: rest) b p w = (b, addTo row p w) :: rest := by
        simp [addCell]
      rw [hstep]
      simp only [colVals, List.map_cons, List.sum_cons, alookup_addTo]
      ring
    · simp only [addCell, if_neg hbt, colVals, List.map_cons, List.sum_cons]
      simp only [colVals] at ih
      rw [ih]
      ring

theorem mem_keys_addCell (data : List (Label × List (Label × ℚ)))
    (t p : Label) (w : ℚ) (a : Label) :
    a ∈ (addCell data t p w).map Prod.fst ↔ a ∈ data.map Prod.fst ∨ a = t := by
  induction data with
  | nil => simp [addCell]
  | cons kv rest ih =>
    obtain ⟨b, row⟩ := kv
    by_cases hbt : b = t
    · subst hbt
      by_cases hab : a = b <;> simp [addCell, hab]
    · simp [addCell, hbt, ih]
      tauto

theorem nodup_keys_addCell (data : List (Label × List (Label × ℚ)))
    (t p : Label) (w : ℚ) (h : (data.map Prod.fst).Nodup) :
    ((addCell data t p w).map Prod.fst).Nodup := by
  induction data with
  | nil => simp [addCell]
  | cons kv rest ih =>
    obtain ⟨b, row⟩ := kv
    rw [List.map_cons, List.nodup_cons] at h
    by_cases hbt : b = t
    · subst hbt
      have hstep : addCell ((b, row) :: rest) b p w = (b, addTo row p w) :: rest := by
        simp [addCell]
      rw [hstep, List.map_cons, List.nodup_cons]
      exact ⟨h.1, h.2⟩
    · simp only [addCell, if_neg hbt, List.map_cons, List.nodup_cons]
      refine ⟨?_, ih h.2⟩
      intro hmem
      rcases (mem_keys_addCell rest t p w b).mp hmem with hb | hb
      · exact h.1 hb
      · exact hbt hb

theorem rows_nodup_addCell (data : List (Label × List (Label × ℚ)))
    (t p : Label) (w : ℚ)
    (h : ∀ kv ∈ data, (kv.2.map Prod.fst).Nodup) :
    ∀ kv ∈ addCell data t p w, (kv.2.map Prod.fst).Nodup := by
  induction data with
  | nil =>
    intro kv hkv
    simp [addCell] at hkv
    subst hkv
    simp
  | cons hd rest ih =>
    obtain ⟨b, row⟩ := hd
    intro kv hkv
    by_cases hbt : b = t
    · subst hbt
      have hstep : addCell ((b, row) :: rest) b p w = (b, addTo row p w) :: rest := by
        simp [addCell]
      rw [hstep, List.mem_cons] at hkv
      rcases hkv with hkv | hkv
      · subst hkv
        exact nodup_keys_addTo row p w (h (b, row) (List.mem_cons_self _ _))
      · exact h kv (List.mem_cons_of_mem _ hkv)
    · rw [show addCell ((b, row) :: rest) t p w
          = (b, row) :: addCell rest t p w by simp [addCell, hbt],
        List.mem_cons] at hkv
      rcases hkv with hkv | hkv
      · subst hkv
        exact h (b, row) (List.mem_cons_self _ _)
      · exact ih (fun kv hk => h kv (List.mem_cons_of_mem _ hk)) kv hkv

theorem keysSum_eq_valsSum (m : List (Label × ℚ))
    (h : (m.map Prod.fst).Nodup) :
    ((m.map Prod.fst).map fun k => (alookup m k).getD 0).sum = valsSum m := by
  induction m with
  | nil => simp [valsSum]
  | cons kv rest ih =>
    obtain ⟨b, v⟩ := kv
    rw [List.map_cons, List.nodup_cons] at h
    have htail : (rest.map Prod.fst).map (fun k => (alookup ((b, v) :: rest) k).getD 0)
        = (rest.map Prod.fst).map (fun k => (alookup rest k).getD 0) := by
      apply List.map_congr_left
      intro k hk
      have hbk : ¬ b = k := fun hh => h.1 (hh ▸ hk)
      simp [alookup, hbk]
    simp only [List.map_cons, List.sum_cons, valsSum]
    rw [htail]
    have hhd : (alookup ((b, v) :: rest) b).getD 0 = v := by
      simp [alookup]
    rw [hhd]
    simp only [valsSum] at ih
    rw [ih h.2]

/-! ## Effect of a single `update` / `revert` on each observation -/

theorem ite_neg_zero (c : Prop) [Decidable c] (a : ℚ) :
    (if c then -a else 0) = -(if c then a else 0) := by
  by_cases h : c <;> simp [h]

theorem cellVal_rawUpdate (cm : ConfusionMatrix) (p t : Label) (w : ℚ)
    (t' p' : Label) :
    cellVal (cm.rawUpdate p t w) t' p' =
      cellVal cm t' p' + (if t = t' ∧ p = p' then w else 0) := by
  unfold cellVal ConfusionMatrix.rawUpdate
  simp only
  rw [alookup_addCell]
  by_cases htt : t = t'
  · rw [if_pos htt, alookup_addTo]
    by_cases hpp : p = p' <;> simp [htt, hpp]
  · simp [htt]

theorem rowSumVal_rawUpdate (cm : ConfusionMatrix) (p t : Label) (w : ℚ)
    (c : Label) :
    rowSumVal (cm.rawUpdate p t w) c = rowSumVal cm c + (if t = c then w else 0) := by
  unfold rowSumVal ConfusionMatrix.rawUpdate
  simp only
  exact alookup_addTo cm.sum_row t w c

theorem colSumVal_rawUpdate (cm : ConfusionMatrix) (p t : Label) (w : ℚ)
    (c : Label) :
    colSumVal (cm.rawUpdate p t w) c = colSumVal cm c + (if p = c then w else 0) := by
  unfold colSumVal ConfusionMatrix.rawUpdate
  simp only
  exact alookup_addTo cm.sum_col p w c

theorem nsamples_update (cm : ConfusionMatrix) (p t : Label) (w : Option ℚ) :
    (cm.update p t w).n_samples = cm.n_samples + w.getD 1 := rfl

theorem total_weight_update (cm : ConfusionMatrix) (p t : Label) (w : Option ℚ) :
    (cm.update p t w).total_weight = cm.total_weight + w.getD 1 := rfl

theorem cellVal_update (cm : ConfusionMatrix) (p t : Label) (w : Option ℚ)
    (t' p' : Label) :
    cellVal (cm.update p t w) t' p' =
      cellVal cm t' p' + (if t = t' ∧ p = p' then w.getD 1 else 0) :=
  cellVal_rawUpdate _ p t (w.getD 1) t' p'

theorem rowSumVal_update (cm : ConfusionMatrix) (p t : Label) (w : Option ℚ)
    (c : Label) :
    rowSumVal (cm.update p t w) c = rowSumVal cm c + (if t = c then w.getD 1 else 0) :=
  rowSumVal_rawUpdate _ p t (w.getD 1) c

theorem colSumVal_update (cm : ConfusionMatrix) (p t : Label) (w : Option ℚ)
    (c : Label) :
    colSumVal (cm.update p t w) c = colSumVal cm c + (if p = c then w.getD 1 else 0) :=
  colSumVal_rawUpdate _ p t (w.getD 1) c

theorem nsamples_revert (cm : ConfusionMatrix) (p t : Label) (w : Option ℚ) :
    (cm.revert p t w).n_samples = cm.n_samples + -(w.getD 1) := by
  show cm.n_samples - w.getD 1 = cm.n_samples + -(w.getD 1)
  ring

theorem total_weight_revert (cm : ConfusionMatrix) (p t : Label) (w : Option ℚ) :
    (cm.revert p t w).total_weight = cm.total_weight + -(w.getD 1) := rfl

theorem cellVal_revert (cm : ConfusionMatrix) (p t : Label) (w : Option ℚ)
    (t' p' : Label) :
    cellVal (cm.revert p t w) t' p' =
      cellVal cm t' p' + -(if t = t' ∧ p = p' then w.getD 1 else 0) := by
  rw [show cellVal (cm.revert p t w) t' p'
      = cellVal cm t' p' + (if t = t' ∧ p = p' then -(w.getD 1) else 0) from
    cellVal_rawUpdate _ p t (-(w.getD 1)) t' p', ite_neg_zero]

theorem rowSumVal_revert (cm : ConfusionMatrix) (p t : Label) (w : Option ℚ)
    (c : Label) :
    rowSumVal (cm.revert p t w) c = rowSumVal cm c + -(if t = c then w.getD 1 else 0) := by
  rw [show rowSumVal (cm.revert p t w) c
      = rowSumVal cm c + (if t = c then -(w.getD 1) else 0) from
    rowSumVal_rawUpdate _ p t (-(w.getD 1)) c, ite_neg_zero]

theorem colSumVal_revert (cm : ConfusionMatrix) (p t : Label) (w : Option ℚ)
    (c : Label) :
    colSumVal (cm.revert p t w) c = colSumVal cm c + -(if p = c then w.getD 1 else 0) := by
  rw [show colSumVal (cm.revert p t w) c
      = colSumVal cm c + (if p = c then -(w.getD 1) else 0) from
    colSumVal_rawUpdate _ p t (-(w.getD 1)) c, ite_neg_zero]

theorem cminv_new : CMInv ConfusionMatrix.new := by
  refine ⟨rfl, ?_, ?_, ?_, ?_, ?_, ?_, rfl, rfl⟩ <;>
    simp [ConfusionMatrix.new, rowSumVal, colSumVal, valsSum, colVals, alookup]

theorem cminv_step (cm : ConfusionMatrix) (h : CMInv cm) (p t : Label) (s : ℚ) :
    CMInv (ConfusionMatrix.rawUpdate
      { cm with n_samples := cm.n_samples + s } p t s) := by
  set cm2 := ConfusionMatrix.rawUpdate { cm with n_samples := cm.n_samples + s } p t s
    with hcm2
  have hdata : cm2.data = addCell cm.data t p s := rfl
  have hrow : cm2.sum_row = addTo cm.sum_row t s := rfl
  have hcol : cm2.sum_col = addTo cm.sum_col p s := rfl
  have hns : cm2.n_samples = cm.n_samples + s := rfl
  have htw : cm2.total_weight = cm.total_weight + s := rfl
  refine ⟨?_, ?_, ?_, ?_, ?_, ?_, ?_, ?_, ?_⟩
  · rw [hns, htw, h.ns_tw]
  · rw [hrow]
    exact nodup_keys_addTo _ t s h.row_nodup
  · rw [hcol]
    exact nodup_keys_addTo _ p s h.col_nodup
  · rw [hdata]
    exact nodup_keys_addCell _ t p s h.data_nodup
  · rw [hdata]
    exact rows_nodup_addCell _ t p s h.rows_nodup
  · intro c
    have hl : rowSumVal cm2 c = rowSumVal cm c + (if t = c then s else 0) := by
      unfold rowSumVal
      rw [hrow]
      exact alookup_addTo cm.sum_row t s c
    rw [hl, hdata, alookup_addCell, h.row_ok c]
    by_cases htc : t = c
    · rw [if_pos htc, if_pos htc, valsSum_addTo]
    · rw [if_neg htc, if_neg htc, add_zero]
  · intro c
    have hl : colSumVal cm2 c = colSumVal cm c + (if p = c then s else 0) := by
      unfold colSumVal
      rw [hcol]
      exact alookup_addTo cm.sum_col p s c
    rw [hl, hdata, colVals_addCell, h.col_ok c]
  · rw [htw, hrow, valsSum_addTo, h.tw_row]
  · rw [htw, hcol, valsSum_addTo, h.tw_col]

theorem cminv_update (cm : ConfusionMatrix) (h : CMInv cm) (p t : Label)
    (w : Option ℚ) : CMInv (cm.update p t w) :=
  cminv_step cm h p t (w.getD 1)

theorem cminv_revert (cm : ConfusionMatrix) (h : CMInv cm) (p t : Label)
    (w : Option ℚ) : CMInv (cm.revert p t w) := by
  have hrw : cm.revert p t w
      = ConfusionMatrix.rawUpdate
          { cm with n_samples := cm.n_samples + -(w.getD 1) } p t (-(w.getD 1)) := by
    unfold ConfusionMatrix.revert
    rw [sub_eq_add_neg]
  rw [hrw]
  exact cminv_step cm h p t (-(w.getD 1))

theorem cminv_applyOp (cm : ConfusionMatrix) (h : CMInv cm) (op : Op) :
    CMInv (applyOp cm op) := by
  cases op with
  | upd p t w => exact cminv_update cm h p t w
  | rev p t w => exact cminv_revert cm h p t w

theorem cminv_foldl (ops : List Op) :
    ∀ cm : ConfusionMatrix, CMInv cm → CMInv (ops.foldl applyOp cm) := by
  induction ops with
  | nil => exact fun cm h => h
  | cons op rest ih =>
    intro cm h
    exact ih (applyOp cm op) (cminv_applyOp cm h op)

theorem cminv_of_reachable (cm : ConfusionMatrix) (h : Reachable cm) : CMInv cm := by
  obtain ⟨ops, hops⟩ := h
  rw [← hops]
  exact cminv_foldl ops ConfusionMatrix.new cminv_new

theorem foldl_obs_add (obs : ConfusionMatrix → ℚ) (g : Triple → ℚ)
    (step : ConfusionMatrix → Triple → ConfusionMatrix)
    (h : ∀ cm x, obs (step cm x) = obs cm + g x) (L : List Triple) :
    ∀ cm : ConfusionMatrix, obs (L.foldl step cm) = obs cm + (L.map g).sum := by
  induction L with
  | nil => intro cm; simp
  | cons x xs ih =>
    intro cm
    rw [List.foldl_cons, ih (step cm x), h cm x, List.map_cons, List.sum_cons]
    ring

theorem obs_runUpdates_runReverts (obs : ConfusionMatrix → ℚ) (g : Triple → ℚ)
    (hU : ∀ cm x, obs (applyU cm x) = obs cm + g x)
    (hR : ∀ cm x, obs (applyR cm x) = obs cm + -(g x))
    (cm : ConfusionMatrix) (L L' : List Triple) (hperm : L'.Perm L) :
    obs (runReverts (runUpdates cm L) L') = obs cm := by
  unfold runUpdates runReverts
  rw [foldl_obs_add obs (fun x => -(g x)) applyR hR L' _,
    foldl_obs_add obs g applyU hU L cm]
  have hsum : ∀ M : List Triple, (M.map fun x => -(g x)).sum = -((M.map g).sum) := by
    intro M
    induction M with
    | nil => simp
    | cons y ys ihy =>
      rw [List.map_cons, List.sum_cons, List.map_cons, List.sum_cons, ihy]
      ring
  have hps : (L'.map g).sum = (L.map g).sum := (hperm.map g).sum_eq
  rw [hsum L', hps]
  ring

/-! ## Remaining helper lemmas -/

theorem mem_of_alookup {V : Type} (m : List (Label × V)) (a : Label) (v : V)
    (h : alookup m a = some v) : (a, v) ∈ m := by
  induction m with
  | nil => cases h
  | cons kv rest ih =>
    obtain ⟨b, u⟩ := kv
    by_cases hba : b = a
    · subst hba
      have hu : alookup ((b, u) :: rest) b = some u := by
        simp [alookup]
      rw [hu] at h
      injection h with h
      subst h
      exact List.mem_cons_self _ _
    · simp only [alookup, if_neg hba] at h
      exact List.mem_cons_of_mem _ (ih h)

theorem foldl_add_eq_sum (f : Label → ℚ) (ks : List Label) :
    ks.foldl (fun s l => s + f l) 0 = (ks.map f).sum := by
  have hg : ∀ (ks : List Label) (a : ℚ),
      ks.foldl (fun s l => s + f l) a = a + (ks.map f).sum := by
    intro ks
    induction ks with
    | nil => intro a; simp
    | cons k rest ih =>
      intro a
      rw [List.foldl_cons, ih (a + f k), List.map_cons, List.sum_cons]
      ring
  rw [hg ks 0, zero_add]

theorem keys_filter_subset (m : List (Label × ℚ)) (l : Label)
    (h : l ∈ (m.filter fun kv => kv.2 != 0).map Prod.fst) : l ∈ m.map Prod.fst := by
  obtain ⟨kv, hkv, hfst⟩ := List.mem_map.mp h
  exact List.mem_map.mpr ⟨kv, List.mem_of_mem_filter hkv, hfst⟩

theorem mem_filtered_keys (m : List (Label × ℚ))
    (hn : (m.map Prod.fst).Nodup) (l : Label) :
    l ∈ (m.filter fun kv => kv.2 != 0).map Prod.fst ↔ (alookup m l).getD 0 ≠ 0 := by
  induction m with
  | nil => simp [alookup]
  | cons kv rest ih =>
    obtain ⟨b, v⟩ := kv
    rw [List.map_cons, List.nodup_cons] at hn
    by_cases hv : v = 0
    · have hf : List.filter (fun kv => kv.2 != 0) ((b, v) :: rest)
          = List.filter (fun kv => kv.2 != 0) rest := by
        subst hv
        simp
      rw [hf]
      by_cases hbl : b = l
      · subst hbl
        have hu : (alookup ((b, v) :: rest) b).getD 0 = v := by
          simp [alookup]
        rw [hu]
        constructor
        · intro hmem
          exact absurd (keys_filter_subset rest b hmem) hn.1
        · intro hne
          exact absurd hv hne
      · have hlookup : alookup ((b, v) :: rest) l = alookup rest l := by
          simp only [alookup, if_neg hbl]
        rw [hlookup]
        exact ih hn.2
    · have hf : List.filter (fun kv => kv.2 != 0) ((b, v) :: rest)
          = (b, v) :: List.filter (fun kv => kv.2 != 0) rest := by
        simp [hv]
      rw [hf, List.map_cons, List.mem_cons]
      by_cases hbl : b = l
      · subst hbl
        have hu : (alookup ((b, v) :: rest) b).getD 0 = v := by
          simp [alookup]
        rw [hu]
        constructor
        · intro _
          exact hv
        · intro _
          exact Or.inl rfl
      · have hlookup : alookup ((b, v) :: rest) l = alookup rest l := by
          simp only [alookup, if_neg hbl]
        rw [hlookup, ← ih hn.2]
        constructor
        · intro hmem
          rcases hmem with hmem | hmem
          · exact absurd hmem.symm hbl
          · exact hmem
        · intro hmem
          exact Or.inr hmem

theorem exCM_eq : exCM = exCMval := by
  simp only [exCM, scenarioOps, runOps, List.foldl_cons, List.foldl_nil, applyOp,
    ConfusionMatrix.update, ConfusionMatrix.rawUpdate, ConfusionMatrix.new,
    addTo, addCell, exCMval]
  norm_num
  decide

/-! ## The claims -/

/-- C1: for every accumulator state and every sequence of `update(p, t, w)`
calls, appending the same calls as `revert(p, t, w)` in any order restores
`n_samples`, `total_weight`, every cell value (an absent entry read as
zero), every row sum and every column sum to their pre-sequence values.
The single update-then-revert contract is the singleton-sequence instance. -/
theorem claim_C1 (cm : ConfusionMatrix) (L L' : List Triple)
    (hperm : L'.Perm L) :
    ExtEq (runReverts (runUpdates cm L) L') cm := by
  refine ⟨?_, ?_, ?_, ?_, ?_⟩
  · exact obs_runUpdates_runReverts (fun s => s.n_samples) effW
      (fun s x => nsamples_update s x.1 x.2.1 x.2.2)
      (fun s x => nsamples_revert s x.1 x.2.1 x.2.2) cm L L' hperm
  · exact obs_runUpdates_runReverts (fun s => s.total_weight) effW
      (fun s x => total_weight_update s x.1 x.2.1 x.2.2)
      (fun s x => total_weight_revert s x.1 x.2.1 x.2.2) cm L L' hperm
  · intro t p
    exact obs_runUpdates_runReverts (fun s => cellVal s t p)
      (fun x => if x.2.1 = t ∧ x.1 = p then effW x else 0)
      (fun s x => cellVal_update s x.1 x.2.1 x.2.2 t p)
      (fun s x => cellVal_revert s x.1 x.2.1 x.2.2 t p) cm L L' hperm
  · intro c
    exact obs_runUpdates_runReverts (fun s => rowSumVal s c)
      (fun x => if x.2.1 = c then effW x else 0)
      (fun s x => rowSumVal_update s x.1 x.2.1 x.2.2 c)
      (fun s x => rowSumVal_revert s x.1 x.2.1 x.2.2 c) cm L L' hperm
  · intro c
    exact obs_runUpdates_runReverts (fun s => colSumVal s c)
      (fun x => if x.1 = c then effW x else 0)
      (fun s x => colSumVal_update s x.1 x.2.1 x.2.2 c)
      (fun s x => colSumVal_revert s x.1 x.2.1 x.2.2 c) cm L L' hperm

/-- Witness for C1: a concrete state, a two-call update sequence, and the
same calls reverted in the opposite order. -/
theorem claim_C1_witness :
    ([(("cat" : Label), ("ant" : Label), some (2 : ℚ)), ("ant", "cat", none)] :
        List Triple).Perm [("ant", "cat", none), ("cat", "ant", some 2)] ∧
      ExtEq (runReverts
          (runUpdates exCM [("ant", "cat", none), ("cat", "ant", some 2)])
          [("cat", "ant", some 2), ("ant", "cat", none)]) exCM :=
  ⟨List.Perm.swap _ _ _,
    claim_C1 exCM [("ant", "cat", none), ("cat", "ant", some 2)]
      [("cat", "ant", some 2), ("ant", "cat", none)] (List.Perm.swap _ _ _)⟩

/-- C2: in every state reachable from `new()`, the stored row sum for any
label `c` equals the sum of `cells[c][p]` over the predicted labels `p`
present in row `c`, and the stored column sum for `c` equals the sum of
`cells[t][c]` over the truth labels `t` present as row keys (rows without an
entry for `c` contribute zero). -/
theorem claim_C2 (cm : ConfusionMatrix) (h : Reachable cm) (c : Label) :
    rowSumVal cm c
        = ((((alookup cm.data c).getD []).map Prod.fst).map
            fun p => cellVal cm c p).sum ∧
      colSumVal cm c
        = ((cm.data.map Prod.fst).map fun t => cellVal cm t c).sum := by
  have inv := cminv_of_reachable cm h
  constructor
  · rw [inv.row_ok c]
    cases hrow : alookup cm.data c with
    | none =>
      simp [cellVal, valsSum, hrow]
    | some row =>
      have hnodup : (row.map Prod.fst).Nodup :=
        inv.rows_nodup (c, row) (mem_of_alookup cm.data c row hrow)
      have hcell : (row.map Prod.fst).map (fun p => cellVal cm c p)
          = (row.map Prod.fst).map (fun p => (alookup row p).getD 0) := by
        apply List.map_congr_left
        intro p _
        unfold cellVal
        rw [hrow]
        rfl
      simp only [hrow, Option.getD_some]
      rw [hcell, keysSum_eq_valsSum row hnodup]
  · rw [inv.col_ok c]
    unfold colVals
    rw [List.map_map]
    apply congrArg List.sum
    apply List.map_congr_left
    intro kv hkv
    have hself : alookup cm.data kv.1 = some kv.2 :=
      alookup_of_mem_nodup cm.data kv.1 kv.2 inv.data_nodup hkv
    show (alookup kv.2 c).getD 0 = cellVal cm kv.1 c
    unfold cellVal
    rw [hself]
    rfl

/-- Witness for C2 at the concrete doc-test state and label "cat". -/
theorem claim_C2_witness :
    Reachable exCM ∧
      (rowSumVal exCM "cat"
          = ((((alookup exCM.data "cat").getD []).map Prod.fst).map
              fun p => cellVal exCM "cat" p).sum ∧
        colSumVal exCM "cat"
          = ((exCM.data.map Prod.fst).map fun t => cellVal exCM t "cat").sum) :=
  ⟨⟨scenarioOps, rfl⟩, claim_C2 exCM ⟨scenarioOps, rfl⟩ "cat"⟩

/-- C3: in every reachable state, `total_weight` equals the sum of all
stored row-sum values and separately the sum of all stored column-sum
values. -/
theorem claim_C3 (cm : ConfusionMatrix) (h : Reachable cm) :
    cm.total_weight = valsSum cm.sum_row ∧ cm.total_weight = valsSum cm.sum_col :=
  ⟨(cminv_of_reachable cm h).tw_row, (cminv_of_reachable cm h).tw_col⟩

/-- Witness for C3 at the concrete doc-test state. -/
theorem claim_C3_witness :
    Reachable exCM ∧
      (exCM.total_weight = valsSum exCM.sum_row ∧
        exCM.total_weight = valsSum exCM.sum_col) :=
  ⟨⟨scenarioOps, rfl⟩, claim_C3 exCM ⟨scenarioOps, rfl⟩⟩

/-- C4: for every state, labels `p`, `t` and optional weight `w` (defaulting
to 1), `update(p, t, w)` adds the effective weight to `n_samples`, to
`cells[t][p]` (creating row and entry if absent — captured by the
absent-as-zero cell reading), to `total_weight`, to `row_sums[t]` and to
`col_sums[p]`, and leaves every other cell, row sum and column sum
unchanged; being a total function it never fails. -/
theorem claim_C4 (cm : ConfusionMatrix) (p t : Label) (w : Option ℚ) :
    (cm.update p t w).n_samples = cm.n_samples + w.getD 1 ∧
      (cm.update p t w).total_weight = cm.total_weight + w.getD 1 ∧
      (∀ t' p', cellVal (cm.update p t w) t' p'
          = cellVal cm t' p' + (if t = t' ∧ p = p' then w.getD 1 else 0)) ∧
      (∀ c, rowSumVal (cm.update p t w) c
          = rowSumVal cm c + (if t = c then w.getD 1 else 0)) ∧
      (∀ c, colSumVal (cm.update p t w) c
          = colSumVal cm c + (if p = c then w.getD 1 else 0)) :=
  ⟨nsamples_update cm p t w, total_weight_update cm p t w,
    fun t' p' => cellVal_update cm p t w t' p',
    fun c => rowSumVal_update cm p t w c,
    fun c => colSumVal_update cm p t w c⟩

/-- C5: `true_negatives(l)` equals `total_true_positives()` minus
`true_positives(l)`, where `total_true_positives()` is the sum of the
diagonal cells over exactly the truth-row keys of `data`; and at the
doc-test state this differs from the textbook one-vs-rest true-negative
count, so the sum-of-diagonal formula is the one in use. -/
theorem claim_C5 :
    (∀ (cm : ConfusionMatrix) (l : Label),
        cm.true_negatives l
          = ((cm.data.map Prod.fst).map fun c => cellVal cm c c).sum
              - cm.true_positives l) ∧
      exCM.true_negatives "ant"
        ≠ exCM.total_weight - rowSumVal exCM "ant" - colSumVal exCM "ant"
            + exCM.true_positives "ant" := by
  constructor
  · intro cm l
    unfold ConfusionMatrix.true_negatives ConfusionMatrix.total_true_positives
    rw [foldl_add_eq_sum (fun label => cm.true_positives label) (cm.data.map Prod.fst)]
    rfl
  · rw [exCM_eq]
    simp +decide only [exCMval, ConfusionMatrix.true_negatives,
      ConfusionMatrix.total_true_positives, ConfusionMatrix.true_positives,
      rowSumVal, colSumVal, alookup, List.map_cons, List.map_nil,
      List.foldl_cons, List.foldl_nil, Option.getD_some, Option.getD_none]
    norm_num

/-- C6: in every reachable state, `get_classes()` contains exactly the
labels whose stored row sum is non-zero or whose stored column sum is
non-zero; a label whose net weight has been reverted to zero is therefore
excluded even when its map entries still exist with value zero. -/
theorem claim_C6 (cm : ConfusionMatrix) (h : Reachable cm) (l : Label) :
    l ∈ cm.get_classes ↔ (rowSumVal cm l ≠ 0 ∨ colSumVal cm l ≠ 0) := by
  have inv := cminv_of_reachable cm h
  unfold ConfusionMatrix.get_classes
  rw [Finset.mem_union, List.mem_toFinset, List.mem_toFinset,
    mem_filtered_keys cm.sum_row inv.row_nodup l,
    mem_filtered_keys cm.sum_col inv.col_nodup l]
  exact Iff.rfl

/-- Witness for C6 at the fully-reverted state and the label "a". -/
theorem claim_C6_witness :
    Reachable revCM ∧
      (("a" : Label) ∈ revCM.get_classes ↔
        (rowSumVal revCM "a" ≠ 0 ∨ colSumVal revCM "a" ≠ 0)) :=
  ⟨⟨revOps, rfl⟩, claim_C6 revCM ⟨revOps, rfl⟩ "a"⟩

/-- C7: `support(l)` is the stored column sum for `l` — the total weight
with which `l` was predicted — returning zero when absent; it is not the
row (true-label) total, as the doc-test state shows. -/
theorem claim_C7 :
    (∀ (cm : ConfusionMatrix) (l : Label), cm.support l = colSumVal cm l) ∧
      alookup exCM.sum_col "dog" = none ∧ exCM.support "dog" = 0 ∧
      exCM.support "ant" ≠ rowSumVal exCM "ant" := by
  refine ⟨fun cm l => rfl, ?_, ?_, ?_⟩
  · rw [exCM_eq]
    decide
  · rw [exCM_eq]
    decide
  · rw [exCM_eq]
    decide

/-- C8: the doc-test scenario — six weight-1 updates with (predicted, true)
pairs (ant, cat), (ant, ant), (cat, cat), (cat, cat), (ant, ant),
(cat, bird) — yields `get(bird)[cat] = 1`, `true_positives(ant) = 2`,
`true_positives(cat) = 2`, `false_negatives(cat) = 1`,
`false_negatives(bird) = 1` and `total_weight = 6`. -/
theorem claim_C8 :
    (alookup (exCM.get "bird") "cat").getD 0 = 1 ∧
      exCM.true_positives "ant" = 2 ∧ exCM.true_positives "cat" = 2 ∧
      exCM.false_negatives "cat" = 1 ∧ exCM.false_negatives "bird" = 1 ∧
      exCM.total_weight = 6 := by
  rw [exCM_eq]
  simp +decide only [exCMval, ConfusionMatrix.get, ConfusionMatrix.true_positives,
    ConfusionMatrix.false_negatives, alookup, Option.getD_some, Option.getD_none]
  norm_num

/-- C9: no accumulator query fails: for a label absent from every map,
`get` returns the empty mapping and `support`, `true_positives`,
`false_positives`, `false_negatives`, `true_negatives` resolve the missing
keys to zero and return a defined value (`true_negatives` degenerates to
`total_true_positives`). -/
theorem claim_C9 (cm : ConfusionMatrix) (l : Label)
    (hd : l ∉ cm.data.map Prod.fst) (hr : l ∉ cm.sum_row.map Prod.fst)
    (hc : l ∉ cm.sum_col.map Prod.fst) :
    cm.get l = [] ∧ cm.support l = 0 ∧ cm.true_positives l = 0 ∧
      cm.false_positives l = 0 ∧ cm.false_negatives l = 0 ∧
      cm.true_negatives l = cm.total_true_positives := by
  have h1 : alookup cm.data l = none := alookup_eq_none cm.data l hd
  have h2 : alookup cm.sum_row l = none := alookup_eq_none cm.sum_row l hr
  have h3 : alookup cm.sum_col l = none := alookup_eq_none cm.sum_col l hc
  have htp : cm.true_positives l = 0 := by
    unfold ConfusionMatrix.true_positives
    rw [h1]
    rfl
  refine ⟨?_, ?_, htp, ?_, ?_, ?_⟩
  · unfold ConfusionMatrix.get
    rw [h1]
    rfl
  · unfold ConfusionMatrix.support
    rw [h3]
    rfl
  · unfold ConfusionMatrix.false_positives
    rw [h3, htp]
    simp
  · unfold ConfusionMatrix.false_negatives
    rw [h2, htp]
    simp
  · unfold ConfusionMatrix.true_negatives
    rw [htp]
    simp

/-- Witness for C9 at the doc-test state and the absent label "dog". -/
theorem claim_C9_witness :
    (("dog" : Label) ∉ exCM.data.map Prod.fst ∧
        ("dog" : Label) ∉ exCM.sum_row.map Prod.fst ∧
        ("dog" : Label) ∉ exCM.sum_col.map Prod.fst) ∧
      (exCM.get "dog" = [] ∧ exCM.support "dog" = 0 ∧
        exCM.true_positives "dog" = 0 ∧ exCM.false_positives "dog" = 0 ∧
        exCM.false_negatives "dog" = 0 ∧
        exCM.true_negatives "dog" = exCM.total_true_positives) :=
  ⟨⟨by rw [exCM_eq]; decide, by rw [exCM_eq]; decide, by rw [exCM_eq]; decide⟩,
    claim_C9 exCM "dog" (by rw [exCM_eq]; decide) (by rw [exCM_eq]; decide)
      (by rw [exCM_eq]; decide)⟩

/-- C10: in every reachable state, `n_samples` equals `total_weight`: both
change by the same effective weight on every `update` and `revert`. -/
theorem claim_C10 (cm : ConfusionMatrix) (h : Reachable cm) :
    cm.n_samples = cm.total_weight :=
  (cminv_of_reachable cm h).ns_tw

/-- Witness for C10 at the doc-test state. -/
theorem claim_C10_witness :
    Reachable exCM ∧ exCM.n_samples = exCM.total_weight :=
  ⟨⟨scenarioOps, rfl⟩, claim_C10 exCM ⟨scenarioOps, rfl⟩⟩
